import Mathlib

/-!
Shallow embedding of `parser-utils-rs` (src/src/lib.rs), a toolkit of two
cursors for hand-written lexers and parsers:
  * `SimpleTokenizer` — the character-level cursor over a UTF-8 source text;
  * `TokenView` — the token-level cursor over a pre-built token sequence.

Source text is modelled as a `List Char`; byte offsets are `Nat`s measured
with `Char.utf8Size`.  Rust's `&source[i..]` panics when `i` is not a UTF-8
character boundary (or exceeds the byte length); the embedding models this
with `charsFrom`, which returns `none` exactly in the panicking cases, and
every cursor operation that slices returns an `Option` whose `none` is a
Rust panic.  Recoverable failures (`Result` in the source) are `Except`.
-/

/-- Total UTF-8 byte length of a character list (Rust `str::len`). -/
def utf8Len (cs : List Char) : Nat :=
  cs.foldr (fun c n => c.utf8Size + n) 0

/-- The suffix of `cs` that starts at byte offset `i`: models Rust
`&source[i..]`, which panics (`none` here) when `i` is not on a character
boundary or exceeds the byte length. -/
def charsFrom : List Char → Nat → Option (List Char)
  | cs, 0 => some cs
  | [], _ + 1 => none
  | c :: cs, n + 1 =>
    if c.utf8Size ≤ n + 1 then charsFrom cs (n + 1 - c.utf8Size) else none

/-! ## Data model (src/src/lib.rs lines 8-58) -/

/-- Model of `Token<Kind>`: a classified span `[index, index+len)` of the source,
offsets in bytes (`u32` in the source; modelled as `Nat`, the claims
restrict attention to the 32-bit range). -/
structure Token (Kind : Type) where
  kind : Kind
  index : Nat
  len : Nat
  deriving Repr, DecidableEq

/-- Model of `TokenizeErrorKind` (lib.rs lines 22-34). -/
inductive TokenizeErrorKind where
  | ExpectedChar (expected : Char) (got : Char)
  | UnexpectedChar (got : Char)
  | UnexpectedEndOfInput
  | Custom (message : String)
  deriving Repr, DecidableEq

/-- Model of `TokenizeError` (lib.rs lines 36-42).  The debug-only `source`
call-site field exists only under `cfg(debug_assertions)` and must not
affect matching, so it is omitted from the model. -/
structure TokenizeError where
  index : Nat
  kind : TokenizeErrorKind
  deriving Repr, DecidableEq

/-- Model of `PositionInfo` (lib.rs lines 52-58). -/
structure PositionInfo where
  line : Nat
  column : Nat
  line_start_index : Nat
  index : Nat
  deriving Repr, DecidableEq

/-- The `for c in source.chars()` loop of `TokenizeError::position`
(lib.rs lines 68-80): state is `(line, line_start_index, column,
str_index)`; on `'\n'` the line counter advances and `line_start_index`
is set to the offset *before* the newline's own byte is added; the loop
breaks once the cumulative offset reaches the queried index. -/
def positionLoop (index : Nat) :
    List Char → Nat → Nat → Nat → Nat → Nat × Nat × Nat
  | [], line, lineStart, column, _ => (line, lineStart, column)
  | c :: cs, line, lineStart, column, strIndex =>
    let st := if c = '\n' then (line + 1, strIndex, 0)
              else (line, lineStart, column + 1)
    let strIndex' := strIndex + c.utf8Size
    if index ≤ strIndex' then st
    else positionLoop index cs st.1 st.2.1 st.2.2 strIndex'

/-- Model of `TokenizeError::position(this, source)` (lib.rs lines 61-88), with the
error's byte offset passed explicitly. -/
def TokenizeError.position (source : List Char) (index : Nat) : PositionInfo :=
  let r := positionLoop index source 1 0 0 0
  { line := r.1, column := r.2.2, line_start_index := r.2.1, index := index }

/-! ## Character cursor `SimpleTokenizer` (lib.rs lines 15-244) -/

/-- Model of `SimpleTokenizer` state: borrowed source plus the two byte offsets. -/
structure SimpleTokenizer where
  source : List Char
  index : Nat
  start : Nat
  deriving Repr, DecidableEq

namespace SimpleTokenizer

/-- Model of `From<&str>` (lib.rs lines 236-244): both offsets start at 0. -/
def fromSource (src : List Char) : SimpleTokenizer :=
  { source := src, index := 0, start := 0 }

/-- Model of `begin_token` (lib.rs lines 106-108). -/
def begin_token (s : SimpleTokenizer) : SimpleTokenizer :=
  { s with start := s.index }

/-- Model of `set_index` (lib.rs lines 110-116): pulls `start` down when the new
index is below it, then repositions unconditionally — there is no check
against the source length. -/
def set_index (s : SimpleTokenizer) (i : Nat) : SimpleTokenizer :=
  { s with start := if s.start > i then i else s.start, index := i }

/-- Model of `peek` (lib.rs lines 153-162): `self.source[self.index..].chars().next()`.
`none` models the Rust panic when `index` is not a character boundary;
`Except.error` is the recoverable `UnexpectedEndOfInput`. -/
def peek (s : SimpleTokenizer) : Option (Except TokenizeError Char) :=
  (charsFrom s.source s.index).map fun cs =>
    match cs with
    | [] => Except.error { index := s.index, kind := .UnexpectedEndOfInput }
    | c :: _ => Except.ok c

/-- Model of `take` (lib.rs lines 132-145): peek, then advance by the returned
character's UTF-8 width. -/
def take (s : SimpleTokenizer) :
    Option (Except TokenizeError Char × SimpleTokenizer) :=
  (charsFrom s.source s.index).map fun cs =>
    match cs with
    | [] => (Except.error { index := s.index, kind := .UnexpectedEndOfInput }, s)
    | c :: _ => (Except.ok c, { s with index := s.index + c.utf8Size })

/-- Model of `expect` (lib.rs lines 172-188): peek; on equality advance by the
character's width, otherwise fail with `ExpectedChar` leaving the index
where it was. -/
def expect (s : SimpleTokenizer) (expected : Char) :
    Option (Except TokenizeError Unit × SimpleTokenizer) :=
  (charsFrom s.source s.index).map fun cs =>
    match cs with
    | [] => (Except.error { index := s.index, kind := .UnexpectedEndOfInput }, s)
    | c :: _ =>
      if c = expected then (Except.ok (), { s with index := s.index + c.utf8Size })
      else (Except.error { index := s.index,
                           kind := .ExpectedChar expected c }, s)

/-- The net effect of the `while let` loop of `take_while` (lib.rs lines
166-168) on the remaining suffix: the matched prefix and its byte width. -/
def scanWhile (p : Char → Bool) : List Char → List Char × Nat
  | [] => ([], 0)
  | c :: cs =>
    if p c then
      let r := scanWhile p cs
      (c :: r.1, c.utf8Size + r.2)
    else ([], 0)

/-- Model of `take_while` (lib.rs lines 164-170): loop while the peeked character
satisfies the predicate, then return `&source[start..index]` if any byte
was consumed, `None` otherwise. -/
def take_while (s : SimpleTokenizer) (p : Char → Bool) :
    Option (Option (List Char) × SimpleTokenizer) :=
  (charsFrom s.source s.index).map fun cs =>
    let r := scanWhile p cs
    (if s.index ≠ s.index + r.2 then some r.1 else none,
     { s with index := s.index + r.2 })

/-- Model of `matches` (lib.rs lines 218-220): `peek().ok().filter(eq).is_some()`.
(`matches` is a reserved word in Lean, hence the suffix.) -/
def matchesChar (s : SimpleTokenizer) (expected : Char) : Option Bool :=
  (peek s).map fun r =>
    match r with
    | Except.ok c => c = expected
    | Except.error _ => false

/-- Model of `match_and_take` (lib.rs lines 226-233): on a match the index advances
by exactly ONE byte (`self.index += 1`), whatever the matched character's
UTF-8 width. -/
def match_and_take (s : SimpleTokenizer) (expected : Char) :
    Option (Bool × SimpleTokenizer) :=
  (matchesChar s expected).map fun b =>
    if b then (true, { s with index := s.index + 1 }) else (false, s)

/-- Model of `end_token` (lib.rs lines 190-196): materializes the token
`[start, index)`; does not mutate the cursor. -/
def end_token (s : SimpleTokenizer) {Kind : Type} (kind : Kind) : Token Kind :=
  { kind := kind, index := s.start, len := s.index - s.start }

/-- Model of `has_more_chars` (lib.rs lines 222-224): `index < source.len()`. -/
def has_more_chars (s : SimpleTokenizer) : Bool :=
  s.index < utf8Len s.source

end SimpleTokenizer

/-! ## Token cursor `TokenView` (lib.rs lines 246-424) -/

/-- Model of `ParseErrorKind<Kind>` (lib.rs lines 246-259). -/
inductive ParseErrorKind (Kind : Type) where
  | UnexpectedToken (t : Token Kind)
  | ExpectedToken (expected : Kind) (got : Token Kind)
  | ExpectedString (expected : String) (got : String) (token : Token Kind)
  | UnexpectedEndOfInput
  deriving Repr, DecidableEq

/-- Model of `ParseError<Kind>` (lib.rs lines 261-266); the debug-only call-site
field is omitted as for `TokenizeError`. -/
structure ParseError (Kind : Type) where
  kind : ParseErrorKind Kind
  deriving Repr, DecidableEq

/-- Model of `Tokens<Kind>` (lib.rs lines 268-270): the owned token container. -/
structure Tokens (Kind : Type) where
  inner : List (Token Kind)
  deriving Repr, DecidableEq

/-- Model of `TokenView<'a, Kind>` (lib.rs lines 280-284). -/
structure TokenView (Kind : Type) where
  source : List Char
  tokens : Tokens Kind
  index : Nat
  deriving Repr, DecidableEq

namespace TokenView

/-- Model of `TokenView::new` (lib.rs lines 287-293). -/
def new {Kind : Type} (source : List Char) (tokens : Tokens Kind) :
    TokenView Kind :=
  { source := source, tokens := tokens, index := 0 }

/-- Model of `peek` (lib.rs lines 295-302): `tokens.inner.get(index)`, erroring
with `UnexpectedEndOfInput` when out of range. -/
def peek {Kind : Type} (v : TokenView Kind) :
    Except (ParseError Kind) (Token Kind) :=
  match v.tokens.inner.get? v.index with
  | some t => Except.ok t
  | none => Except.error { kind := .UnexpectedEndOfInput }

/-- Model of `take` (lib.rs lines 310-323): bounds check, then read and advance. -/
def take {Kind : Type} (v : TokenView Kind) :
    Except (ParseError Kind) (Token Kind) × TokenView Kind :=
  match v.tokens.inner.get? v.index with
  | some t => (Except.ok t, { v with index := v.index + 1 })
  | none => (Except.error { kind := .UnexpectedEndOfInput }, v)

/-- Model of `expect` (lib.rs lines 330-344): `let token = self.take()?` followed by
the kind comparison — the token is consumed by `take` BEFORE the kind is
inspected, so the advanced position is kept even on mismatch. -/
def expect {Kind : Type} [DecidableEq Kind] (v : TokenView Kind)
    (kind : Kind) : Except (ParseError Kind) (Token Kind) × TokenView Kind :=
  match take v with
  | (Except.error e, v') => (Except.error e, v')
  | (Except.ok t, v') =>
    if t.kind = kind then (Except.ok t, v')
    else (Except.error { kind := .ExpectedToken kind t }, v')

/-- Model of `matches` (lib.rs lines 378-381):
`peek().ok().filter(kind eq).is_some()`. -/
def matchesKind {Kind : Type} [DecidableEq Kind] (v : TokenView Kind)
    (kind : Kind) : Bool :=
  match peek v with
  | Except.ok t => t.kind = kind
  | Except.error _ => false

/-- Model of `match_and_take` (lib.rs lines 383-388): peek, and advance by one only
when the peeked token's kind matches. -/
def match_and_take {Kind : Type} [DecidableEq Kind] (v : TokenView Kind)
    (kind : Kind) : Bool × TokenView Kind :=
  match peek v with
  | Except.ok t =>
    if t.kind = kind then (true, { v with index := v.index + 1 })
    else (false, v)
  | Except.error _ => (false, v)

/-- Model of `has_more_tokens` (lib.rs lines 390-392). -/
def has_more_tokens {Kind : Type} (v : TokenView Kind) : Bool :=
  v.index < v.tokens.inner.length

/-- Model of `set_position` (lib.rs lines 398-405): repositions only when
`idx < tokens.inner.len()` (strictly), reporting success. -/
def set_position {Kind : Type} (v : TokenView Kind) (idx : Nat) :
    Bool × TokenView Kind :=
  if idx < v.tokens.inner.length then (true, { v with index := idx })
  else (false, v)

end TokenView

/-! ## Fuelled form of the `take_while` loop, and the operation alphabet -/

/-- The `while let` loop of `take_while` (lib.rs lines 166-168) written
with explicit fuel, one iteration per fuel unit: given the remaining
suffix it returns the unconsumed suffix and the number of bytes consumed,
or `none` when the fuel runs out before the loop exits. -/
def twLoop (p : Char → Bool) : Nat → List Char → Option (List Char × Nat)
  | _, [] => some ([], 0)
  | fuel, c :: cs =>
    if p c then
      match fuel with
      | 0 => none
      | f + 1 => (twLoop p f cs).map fun r => (r.1, c.utf8Size + r.2)
    else some (c :: cs, 0)

/-- One cursor operation with its arguments: the alphabet over which
"every sequence of Character Cursor operations" ranges.  Read-only
operations are included because they can still panic. -/
inductive CharOp where
  | begin_token
  | set_index (i : Nat)
  | peek
  | take
  | expect (c : Char)
  | take_while (p : Char → Bool)
  | matchesChar (c : Char)
  | match_and_take (c : Char)
  | end_token
  | has_more_chars

/-- The state effect of one operation; `none` is a Rust panic. -/
def CharOp.apply : CharOp → SimpleTokenizer → Option SimpleTokenizer
  | .begin_token, s => some (SimpleTokenizer.begin_token s)
  | .set_index i, s => some (SimpleTokenizer.set_index s i)
  | .peek, s => (SimpleTokenizer.peek s).map fun _ => s
  | .take, s => (SimpleTokenizer.take s).map Prod.snd
  | .expect c, s => (SimpleTokenizer.expect s c).map Prod.snd
  | .take_while p, s => (SimpleTokenizer.take_while s p).map Prod.snd
  | .matchesChar c, s => (SimpleTokenizer.matchesChar s c).map fun _ => s
  | .match_and_take c, s => (SimpleTokenizer.match_and_take s c).map Prod.snd
  | .end_token, s => some s
  | .has_more_chars, s => some s

/-- Running a sequence of operations, propagating panics. -/
def execList : List CharOp → SimpleTokenizer → Option SimpleTokenizer
  | [], s => some s
  | op :: ops, s => (CharOp.apply op s).bind (execList ops)

/-- Well-formed use of one operation on source `src`: `set_index` must
target a character boundary within the text, and `match_and_take` must be
called with a single-byte character (its one-byte advance is only correct
then). -/
def wfOp (src : List Char) : CharOp → Prop
  | .set_index i => (charsFrom src i).isSome = true
  | .match_and_take c => c.utf8Size = 1
  | _ => True

/-- The cursor's index is a character boundary of its (unchanged) source. -/
def Boundary (src : List Char) (s : SimpleTokenizer) : Prop :=
  s.source = src ∧ (charsFrom src s.index).isSome = true

/-- The documented cursor invariant: `start ≤ index ≤ len(source)`. -/
def CursorInv (s : SimpleTokenizer) : Prop :=
  s.start ≤ s.index ∧ s.index ≤ utf8Len s.source

/-! ## Helper lemmas -/

@[simp]
theorem utf8Len_nil : utf8Len [] = 0 := rfl

@[simp]
theorem utf8Len_cons (c : Char) (cs : List Char) :
    utf8Len (c :: cs) = c.utf8Size + utf8Len cs := rfl

@[simp]
theorem charsFrom_zero (cs : List Char) : charsFrom cs 0 = some cs := by
  cases cs <;> rfl

theorem charsFrom_cons_self (c : Char) (cs : List Char) :
    charsFrom (c :: cs) c.utf8Size = some cs := by
  have hpos : 0 < c.utf8Size := Char.utf8Size_pos c
  obtain ⟨n, hn⟩ : ∃ n, c.utf8Size = n + 1 := ⟨c.utf8Size - 1, by omega⟩
  rw [hn]
  simp only [charsFrom]
  rw [hn, if_pos (Nat.le_refl _)]
  simp

theorem charsFrom_advance {src cs : List Char} {i : Nat} {c : Char}
    (h : charsFrom src i = some (c :: cs)) :
    charsFrom src (i + c.utf8Size) = some cs := by
  induction src generalizing i with
  | nil =>
    cases i with
    | zero => simp at h
    | succ n => simp [charsFrom] at h
  | cons d ds ih =>
    cases i with
    | zero =>
      rw [charsFrom_zero] at h
      obtain ⟨rfl, rfl⟩ : d = c ∧ ds = cs := by
        simpa using h
      rw [Nat.zero_add]
      exact charsFrom_cons_self _ _
    | succ n =>
      simp only [charsFrom] at h
      by_cases hle : d.utf8Size ≤ n + 1
      · rw [if_pos hle] at h
        have ih' := ih h
        have hw : 1 ≤ d.utf8Size := Char.utf8Size_pos d
        have heq : n + 1 + c.utf8Size = (n + c.utf8Size) + 1 := by omega
        rw [heq]
        simp only [charsFrom]
        have hle' : d.utf8Size ≤ n + c.utf8Size + 1 := by omega
        rw [if_pos hle']
        have harith : n + c.utf8Size + 1 - d.utf8Size
            = n + 1 - d.utf8Size + c.utf8Size := by omega
        rw [harith]
        exact ih'
      · rw [if_neg hle] at h
        exact absurd h (by simp)

theorem charsFrom_utf8Len {src cs : List Char} {i : Nat}
    (h : charsFrom src i = some cs) : i + utf8Len cs = utf8Len src := by
  induction src generalizing i with
  | nil =>
    cases i with
    | zero =>
      rw [charsFrom_zero] at h
      obtain rfl : ([] : List Char) = cs := by simpa using h
      simp
    | succ n => simp [charsFrom] at h
  | cons d ds ih =>
    cases i with
    | zero =>
      rw [charsFrom_zero] at h
      obtain rfl : d :: ds = cs := by simpa using h
      simp
    | succ n =>
      simp only [charsFrom] at h
      by_cases hle : d.utf8Size ≤ n + 1
      · rw [if_pos hle] at h
        have := ih h
        simp only [utf8Len_cons]
        omega
      · rw [if_neg hle] at h
        exact absurd h (by simp)

theorem scanWhile_eq (p : Char → Bool) (cs : List Char) :
    SimpleTokenizer.scanWhile p cs
      = (cs.takeWhile p, utf8Len (cs.takeWhile p)) := by
  induction cs with
  | nil => rfl
  | cons c cs ih =>
    simp only [SimpleTokenizer.scanWhile, List.takeWhile_cons]
    by_cases h : p c
    · simp [h, ih]
    · simp [h]

theorem charsFrom_skip {src : List Char} {i : Nat} {pre suf : List Char}
    (h : charsFrom src i = some (pre ++ suf)) :
    charsFrom src (i + utf8Len pre) = some suf := by
  induction pre generalizing i with
  | nil => simpa using h
  | cons c cs ih =>
    have h1 : charsFrom src (i + c.utf8Size) = some (cs ++ suf) :=
      charsFrom_advance (by simpa using h)
    have h2 := ih h1
    have harith : i + utf8Len (c :: cs) = i + c.utf8Size + utf8Len cs := by
      simp only [utf8Len_cons]; omega
    rw [harith]
    exact h2

theorem utf8Len_takeWhile_le (p : Char → Bool) (cs : List Char) :
    utf8Len (cs.takeWhile p) ≤ utf8Len cs := by
  induction cs with
  | nil => simp
  | cons c cs ih =>
    simp only [List.takeWhile_cons]
    by_cases h : p c
    · simp only [h, if_pos, utf8Len_cons]; omega
    · simp [h]

theorem utf8Len_eq_zero {cs : List Char} : utf8Len cs = 0 ↔ cs = [] := by
  cases cs with
  | nil => simp
  | cons c cs =>
    simp only [utf8Len_cons]
    have := Char.utf8Size_pos c
    constructor
    · intro h; omega
    · intro h; simp at h

/-! ## Claim theorems -/

/-- C2 (counterexample): the position resolver applied to `"ab\ncd"` does
NOT return `line_start_index = 3` at offset 3, nor `column = 0` at
offset 0, as the claim states: the actual results differ. -/
theorem position_claim_cex :
    TokenizeError.position "ab\ncd".data 3
        ≠ { line := 2, column := 0, line_start_index := 3, index := 3 } ∧
    TokenizeError.position "ab\ncd".data 0
        ≠ { line := 1, column := 0, line_start_index := 0, index := 0 } := by
  decide

/-- C2 (amended): on `"ab\ncd"` at offset 3 the resolver returns
`line = 2, column = 0, line_start_index = 2` — `line_start_index` is
recorded before the newline's own byte is added, so it is the offset OF
the newline, not of the following character; at offset 0 it returns
`line = 1, column = 1, line_start_index = 0` — the loop body processes the
first character (incrementing `column`) before the break test fires. -/
theorem position_ab_cd :
    TokenizeError.position "ab\ncd".data 3
        = { line := 2, column := 0, line_start_index := 2, index := 3 } ∧
    TokenizeError.position "ab\ncd".data 0
        = { line := 1, column := 1, line_start_index := 0, index := 0 } := by
  decide

/-- C4: on a character-boundary state, `match_and_take(c)` with the next
character equal to `c` returns true and advances the index by exactly one
byte whatever `c`'s UTF-8 width; when the next character differs or the
input is exhausted it returns false and leaves the index unchanged. -/
theorem match_and_take_char_spec (s : SimpleTokenizer) (c : Char)
    (cs : List Char) (h : charsFrom s.source s.index = some cs) :
    (cs.head? = some c →
      SimpleTokenizer.match_and_take s c
        = some (true, { s with index := s.index + 1 })) ∧
    (cs.head? ≠ some c →
      SimpleTokenizer.match_and_take s c = some (false, s)) := by
  unfold SimpleTokenizer.match_and_take SimpleTokenizer.matchesChar
    SimpleTokenizer.peek
  rw [h]
  cases cs with
  | nil => simp
  | cons g rest =>
    by_cases hg : g = c
    · subst hg
      simp
    · simp [hg, Ne.symm hg]

/-- C4 (witness): on `"ab"` from the initial state, matching `'a'`
succeeds and advances the index to 1. -/
theorem match_and_take_char_spec_witness :
    charsFrom "ab".data 0 = some "ab".data ∧
    SimpleTokenizer.match_and_take (SimpleTokenizer.fromSource "ab".data) 'a'
      = some (true, { source := "ab".data, index := 0 + 1, start := 0 }) :=
  ⟨by decide,
   (match_and_take_char_spec (SimpleTokenizer.fromSource "ab".data) 'a'
      "ab".data (by decide)).1 (by decide)⟩

/-- C8: on a character-boundary state, `expect(c)` at end of input fails
with `UnexpectedEndOfInput` leaving the index unchanged; on a mismatching
character it fails with `ExpectedChar{expected: c, got: actual}` leaving
the index unchanged; on a match it succeeds and advances the index by
exactly `c`'s UTF-8 byte width. -/
theorem expect_char_spec (s : SimpleTokenizer) (c : Char) (cs : List Char)
    (h : charsFrom s.source s.index = some cs) :
    (cs = [] →
      SimpleTokenizer.expect s c
        = some (Except.error
            { index := s.index, kind := .UnexpectedEndOfInput }, s)) ∧
    (∀ g rest, cs = g :: rest → g ≠ c →
      SimpleTokenizer.expect s c
        = some (Except.error
            { index := s.index, kind := .ExpectedChar c g }, s)) ∧
    (∀ rest, cs = c :: rest →
      SimpleTokenizer.expect s c
        = some (Except.ok (), { s with index := s.index + c.utf8Size })) := by
  refine ⟨?_, ?_, ?_⟩
  · intro hnil
    subst hnil
    unfold SimpleTokenizer.expect
    rw [h]
    simp
  · intro g rest hcons hne
    subst hcons
    unfold SimpleTokenizer.expect
    rw [h]
    simp [hne]
  · intro rest hcons
    subst hcons
    unfold SimpleTokenizer.expect
    rw [h]
    simp

/-- C8 (witness): on `"ba"` from the initial state, `expect 'a'` fails
with `ExpectedChar{expected: 'a', got: 'b'}` and the index stays 0. -/
theorem expect_char_spec_witness :
    charsFrom "ba".data 0 = some "ba".data ∧ 'b' ≠ 'a' ∧
    SimpleTokenizer.expect (SimpleTokenizer.fromSource "ba".data) 'a'
      = some (Except.error { index := 0, kind := .ExpectedChar 'a' 'b' },
              SimpleTokenizer.fromSource "ba".data) :=
  ⟨by decide, by decide,
   (expect_char_spec (SimpleTokenizer.fromSource "ba".data) 'a'
      "ba".data (by decide)).2.1 'b' "a".data rfl (by decide)⟩

/-- C9: on a character-boundary state, `take_while(predicate)` never
panics or fails; when zero leading characters satisfy the predicate
(including at end of input) it returns the `None` signal with the index
unchanged, and otherwise it returns exactly the consumed prefix with the
index advanced to the first unmatched position (the remaining suffix is
the `dropWhile` of the old suffix) or to end of input. -/
theorem take_while_spec (s : SimpleTokenizer) (p : Char → Bool)
    (cs : List Char) (h : charsFrom s.source s.index = some cs) :
    (cs.takeWhile p = [] →
      SimpleTokenizer.take_while s p = some (none, s)) ∧
    (cs.takeWhile p ≠ [] →
      SimpleTokenizer.take_while s p
        = some (some (cs.takeWhile p),
                { s with index := s.index + utf8Len (cs.takeWhile p) }) ∧
      charsFrom s.source (s.index + utf8Len (cs.takeWhile p))
        = some (cs.dropWhile p)) := by
  constructor
  · intro hempty
    unfold SimpleTokenizer.take_while
    rw [h]
    simp [scanWhile_eq, hempty]
  · intro hne
    have hlen : utf8Len (cs.takeWhile p) ≠ 0 := fun h0 =>
      hne (utf8Len_eq_zero.mp h0)
    refine ⟨?_, ?_⟩
    · unfold SimpleTokenizer.take_while
      rw [h]
      simp only [scanWhile_eq, Option.map_some]
      have hcond : s.index ≠ s.index + utf8Len (cs.takeWhile p) := by omega
      simp [hcond, hlen]
    · have hsplit : cs.takeWhile p ++ cs.dropWhile p = cs :=
        List.takeWhile_append_dropWhile p cs
      exact charsFrom_skip (by rw [hsplit]; exact h)

/-- C9 (witness): on `"aab"` from the initial state, taking while `'a'`
consumes `"aa"`, advancing the index to 2, with suffix `"b"` remaining;
the zero-match branch is exercised via `take_while_spec` at a predicate
no leading character satisfies. -/
theorem take_while_spec_witness :
    charsFrom "aab".data 0 = some "aab".data ∧
    "aab".data.takeWhile (fun c => c = 'a') ≠ [] ∧
    SimpleTokenizer.take_while (SimpleTokenizer.fromSource "aab".data)
        (fun c => c = 'a')
      = some (some ("aab".data.takeWhile (fun c => c = 'a')),
              { source := "aab".data,
                index := 0 + utf8Len ("aab".data.takeWhile (fun c => c = 'a')),
                start := 0 }) :=
  ⟨by decide, by simp,
   ((take_while_spec (SimpleTokenizer.fromSource "aab".data)
      (fun c => c = 'a') "aab".data (by decide)).2 (by simp)).1⟩

/-- C10: the `take_while` scanning loop terminates on every finite
suffix: written with explicit fuel, one unit per iteration, fuel equal to
the number of remaining characters is always enough (each iteration
consumes exactly one character, i.e. at least one byte), and the loop
stops at the first unmatched position or at end of input, having consumed
precisely the bytes `take_while` advances by (`scanWhile`). -/
theorem take_while_loop_terminates (p : Char → Bool) (cs : List Char) :
    twLoop p cs.length cs
      = some (cs.dropWhile p, (SimpleTokenizer.scanWhile p cs).2) := by
  induction cs with
  | nil => rfl
  | cons c cs ih =>
    simp only [List.length_cons, twLoop, SimpleTokenizer.scanWhile,
      List.dropWhile_cons]
    by_cases h : p c
    · simp [h, ih]
    · simp [h]

/-- C1 (counterexample): a Token Cursor over one token of kind `0`
(`Kind := Nat`), asked to `expect 1`, fails with
`ExpectedToken{expected := 1, got := the token}` as claimed — but the
cursor's position moves from 0 to 1 (the token IS consumed), and the
subsequent `peek` returns `UnexpectedEndOfInput`, not the same token. -/
theorem expect_token_mismatch_cex :
    TokenView.expect
        (TokenView.new []
          { inner := [({ kind := 0, index := 0, len := 1 } : Token Nat)] }) 1
      = (Except.error
           { kind := .ExpectedToken 1 { kind := 0, index := 0, len := 1 } },
         { source := [],
           tokens := { inner := [{ kind := 0, index := 0, len := 1 }] },
           index := 1 }) ∧
    TokenView.peek
        (TokenView.expect
          (TokenView.new []
            { inner := [({ kind := 0, index := 0, len := 1 } : Token Nat)] })
          1).2
      = Except.error { kind := .UnexpectedEndOfInput } :=
  ⟨rfl, rfl⟩

/-- C1 (amended): if the current token's kind differs from the argument,
`expect(kind)` fails with `ExpectedToken{expected, got}` where `got` is
the token that was current — but, because `expect` first calls `take`,
the cursor's position advances by one (the token IS consumed), so a
subsequent `peek` sees the following token, not the same one again. -/
theorem expect_token_mismatch {Kind : Type} [DecidableEq Kind]
    (v : TokenView Kind) (kind : Kind) (t : Token Kind)
    (hpeek : TokenView.peek v = Except.ok t) (hne : t.kind ≠ kind) :
    TokenView.expect v kind
      = (Except.error { kind := .ExpectedToken kind t },
         { v with index := v.index + 1 }) := by
  unfold TokenView.peek at hpeek
  unfold TokenView.expect TokenView.take
  cases hget : v.tokens.inner.get? v.index with
  | none =>
    rw [hget] at hpeek
    exact absurd hpeek (by simp)
  | some u =>
    rw [hget] at hpeek
    obtain rfl : u = t := by simpa using hpeek
    simp [hne]

/-- C1 (witness for the amended theorem): the concrete one-token cursor
from the counterexample, with its hypotheses discharged. -/
theorem expect_token_mismatch_witness :
    TokenView.peek
        (TokenView.new []
          { inner := [({ kind := 0, index := 0, len := 1 } : Token Nat)] })
      = Except.ok { kind := 0, index := 0, len := 1 } ∧
    (0 : Nat) ≠ 1 ∧
    TokenView.expect
        (TokenView.new []
          { inner := [({ kind := 0, index := 0, len := 1 } : Token Nat)] }) 1
      = (Except.error
           { kind := .ExpectedToken 1 { kind := 0, index := 0, len := 1 } },
         { source := [],
           tokens := { inner := [{ kind := 0, index := 0, len := 1 }] },
           index := 0 + 1 }) :=
  ⟨rfl, by decide,
   expect_token_mismatch
     (TokenView.new []
       { inner := [({ kind := 0, index := 0, len := 1 } : Token Nat)] })
     1 { kind := 0, index := 0, len := 1 } rfl (by decide)⟩

/-- C6 (counterexample): with a container of exactly one token,
`idx = 1` satisfies the documented state invariant `0 ≤ index ≤
len(tokens)` (it is the position reached after `take`), yet
`set_position 1` returns false: the bounds check is strict. -/
theorem set_position_len_cex :
    (TokenView.set_position
       (TokenView.new []
         { inner := [({ kind := 0, index := 0, len := 1 } : Token Nat)] })
       1).1 = false ∧
    ({ inner := [({ kind := 0, index := 0, len := 1 } : Token Nat)] }
       : Tokens Nat).inner.length = 1 ∧
    (TokenView.take
       (TokenView.new []
         { inner := [({ kind := 0, index := 0, len := 1 } : Token Nat)] })
      ).2.index = 1 := by
  refine ⟨rfl, rfl, rfl⟩

/-- C6 (amended): `set_position(idx)` returns true and repositions to
exactly `idx` when `idx < len(tokens)` (strictly), and returns false
leaving the position unchanged when `idx ≥ len(tokens)` — including at
`idx = len(tokens)`, a position that satisfies the invariant and is
reachable by `take`. -/
theorem set_position_spec {Kind : Type} (v : TokenView Kind) (idx : Nat) :
    (idx < v.tokens.inner.length →
      TokenView.set_position v idx = (true, { v with index := idx })) ∧
    (v.tokens.inner.length ≤ idx →
      TokenView.set_position v idx = (false, v)) := by
  unfold TokenView.set_position
  constructor
  · intro h
    simp [h]
  · intro h
    simp [Nat.not_lt.mpr h]

/-- C6 (witness): on a one-token container, `set_position 0` succeeds and
repositions to 0, and `set_position 1` fails leaving the cursor as is. -/
theorem set_position_spec_witness :
    (0 < ({ inner := [({ kind := 0, index := 0, len := 1 } : Token Nat)] }
            : Tokens Nat).inner.length ∧
      TokenView.set_position
        (TokenView.new []
          { inner := [({ kind := 0, index := 0, len := 1 } : Token Nat)] }) 0
        = (true, { source := [],
                   tokens := { inner := [{ kind := 0, index := 0, len := 1 }] },
                   index := 0 })) ∧
    (({ inner := [({ kind := 0, index := 0, len := 1 } : Token Nat)] }
        : Tokens Nat).inner.length ≤ 1 ∧
      TokenView.set_position
        (TokenView.new []
          { inner := [({ kind := 0, index := 0, len := 1 } : Token Nat)] }) 1
        = (false,
           TokenView.new []
             { inner := [({ kind := 0, index := 0, len := 1 } : Token Nat)] })) :=
  ⟨⟨by decide,
    (set_position_spec
      (TokenView.new []
        { inner := [({ kind := 0, index := 0, len := 1 } : Token Nat)] }) 0).1
      (by decide)⟩,
   ⟨by decide,
    (set_position_spec
      (TokenView.new []
        { inner := [({ kind := 0, index := 0, len := 1 } : Token Nat)] }) 1).2
      (by decide)⟩⟩

/-- C7: the Token Cursor's `match_and_take(kind)` leaves the position
unchanged when it returns false, and when it returns true it advances the
position by exactly one token and ends in the same cursor state as
`expect(kind)` with its return value ignored. -/
theorem match_and_take_token_equiv {Kind : Type} [DecidableEq Kind]
    (v : TokenView Kind) (kind : Kind) :
    ((TokenView.match_and_take v kind).1 = false →
      (TokenView.match_and_take v kind).2 = v) ∧
    ((TokenView.match_and_take v kind).1 = true →
      (TokenView.match_and_take v kind).2.index = v.index + 1 ∧
      (TokenView.match_and_take v kind).2 = (TokenView.expect v kind).2) := by
  unfold TokenView.match_and_take TokenView.expect TokenView.take
    TokenView.peek
  cases hget : v.tokens.inner.get? v.index with
  | none => simp
  | some t =>
    by_cases hk : t.kind = kind
    · simp [hk]
    · simp [hk]

/-- C7 (witness): on a one-token container of kind 0, `match_and_take 0`
returns true, advances the position to 1, and agrees with `expect 0`;
`match_and_take 1` returns false and leaves the cursor unchanged. -/
theorem match_and_take_token_equiv_witness :
    ((TokenView.match_and_take
        (TokenView.new []
          { inner := [({ kind := 0, index := 0, len := 1 } : Token Nat)] })
        0).1 = true ∧
      (TokenView.match_and_take
        (TokenView.new []
          { inner := [({ kind := 0, index := 0, len := 1 } : Token Nat)] })
        0).2.index
        = (TokenView.new []
            { inner := [({ kind := 0, index := 0, len := 1 } : Token Nat)]
            }).index + 1 ∧
      (TokenView.match_and_take
        (TokenView.new []
          { inner := [({ kind := 0, index := 0, len := 1 } : Token Nat)] })
        0).2
        = (TokenView.expect
            (TokenView.new []
              { inner := [({ kind := 0, index := 0, len := 1 } : Token Nat)] })
            0).2) ∧
    ((TokenView.match_and_take
        (TokenView.new []
          { inner := [({ kind := 0, index := 0, len := 1 } : Token Nat)] })
        1).1 = false ∧
      (TokenView.match_and_take
        (TokenView.new []
          { inner := [({ kind := 0, index := 0, len := 1 } : Token Nat)] })
        1).2
        = TokenView.new []
            { inner := [({ kind := 0, index := 0, len := 1 } : Token Nat)] }) :=
  ⟨⟨by decide,
    (match_and_take_token_equiv
      (TokenView.new []
        { inner := [({ kind := 0, index := 0, len := 1 } : Token Nat)] })
      0).2 (by decide)⟩,
   ⟨by decide,
    (match_and_take_token_equiv
      (TokenView.new []
        { inner := [({ kind := 0, index := 0, len := 1 } : Token Nat)] })
      1).1 (by decide)⟩⟩

theorem apply_boundary {src : List Char} {s : SimpleTokenizer} {op : CharOp}
    (hwf : wfOp src op) (hb : Boundary src s) :
    ∃ s', CharOp.apply op s = some s' ∧ Boundary src s' := by
  obtain ⟨hsrc, hbnd⟩ := hb
  subst hsrc
  obtain ⟨cs, hcs⟩ := Option.isSome_iff_exists.mp hbnd
  cases op with
  | begin_token =>
    refine ⟨_, rfl, rfl, ?_⟩
    simpa [SimpleTokenizer.begin_token] using hbnd
  | set_index i =>
    refine ⟨_, rfl, rfl, ?_⟩
    simpa [SimpleTokenizer.set_index, wfOp] using hwf
  | peek =>
    refine ⟨s, ?_, rfl, hbnd⟩
    simp [CharOp.apply, SimpleTokenizer.peek, hcs]
  | take =>
    cases cs with
    | nil =>
      refine ⟨s, ?_, rfl, hbnd⟩
      simp [CharOp.apply, SimpleTokenizer.take, hcs]
    | cons c rest =>
      refine ⟨{ s with index := s.index + c.utf8Size }, ?_, rfl, ?_⟩
      · simp [CharOp.apply, SimpleTokenizer.take, hcs]
      · simp [charsFrom_advance hcs]
  | expect c =>
    cases cs with
    | nil =>
      refine ⟨s, ?_, rfl, hbnd⟩
      simp [CharOp.apply, SimpleTokenizer.expect, hcs]
    | cons g rest =>
      by_cases hg : g = c
      · subst hg
        refine ⟨{ s with index := s.index + g.utf8Size }, ?_, rfl, ?_⟩
        · simp [CharOp.apply, SimpleTokenizer.expect, hcs]
        · simp [charsFrom_advance hcs]
      · refine ⟨s, ?_, rfl, hbnd⟩
        simp [CharOp.apply, SimpleTokenizer.expect, hcs, hg]
  | take_while p =>
    refine ⟨{ s with index := s.index + utf8Len (cs.takeWhile p) }, ?_, rfl, ?_⟩
    · simp [CharOp.apply, SimpleTokenizer.take_while, hcs, scanWhile_eq]
    · have hdrop : charsFrom s.source (s.index + utf8Len (cs.takeWhile p))
          = some (cs.dropWhile p) :=
        charsFrom_skip
          (by rw [List.takeWhile_append_dropWhile p cs]; exact hcs)
      simp [hdrop]
  | matchesChar c =>
    refine ⟨s, ?_, rfl, hbnd⟩
    simp [CharOp.apply, SimpleTokenizer.matchesChar, SimpleTokenizer.peek, hcs]
  | match_and_take c =>
    cases cs with
    | nil =>
      refine ⟨s, ?_, rfl, hbnd⟩
      simp [CharOp.apply, SimpleTokenizer.match_and_take,
        SimpleTokenizer.matchesChar, SimpleTokenizer.peek, hcs]
    | cons g rest =>
      by_cases hg : g = c
      · subst hg
        refine ⟨{ s with index := s.index + 1 }, ?_, rfl, ?_⟩
        · simp [CharOp.apply, SimpleTokenizer.match_and_take,
            SimpleTokenizer.matchesChar, SimpleTokenizer.peek, hcs]
        · have hw : g.utf8Size = 1 := hwf
          have hadv := charsFrom_advance hcs
          rw [hw] at hadv
          simp [hadv]
      · refine ⟨s, ?_, rfl, hbnd⟩
        simp [CharOp.apply, SimpleTokenizer.match_and_take,
          SimpleTokenizer.matchesChar, SimpleTokenizer.peek, hcs, hg]
  | end_token => exact ⟨s, rfl, rfl, hbnd⟩
  | has_more_chars => exact ⟨s, rfl, rfl, hbnd⟩

theorem execList_boundary {src : List Char} :
    ∀ (ops : List CharOp) (s : SimpleTokenizer),
      (∀ op ∈ ops, wfOp src op) → Boundary src s →
      ∃ s', execList ops s = some s' ∧ Boundary src s' := by
  intro ops
  induction ops with
  | nil => exact fun s _ hb => ⟨s, rfl, hb⟩
  | cons op ops ih =>
    intro s hwf hb
    obtain ⟨s1, h1, hb1⟩ := apply_boundary (hwf op (by simp)) hb
    obtain ⟨s2, h2, hb2⟩ := ih s1 (fun o ho => hwf o (by simp [ho])) hb1
    exact ⟨s2, by simp [execList, h1, h2], hb2⟩

/-- C3 (counterexample): on the valid UTF-8 source `"é"`, the operation
sequence `match_and_take 'é'` (which succeeds and advances by one byte,
leaving the index in the middle of the two-byte character) followed by
`peek` panics — `peek` slices `&source[1..]` at a non-boundary offset. -/
theorem char_ops_panic_cex :
    execList [CharOp.match_and_take 'é', CharOp.peek]
      (SimpleTokenizer.fromSource "é".data) = none := by
  decide

/-- C3 (amended): no operation of the Character Cursor panics on valid
UTF-8 input, for every sequence of operations in which each `set_index`
argument is a character-boundary offset of the source and each
`match_and_take` argument is a single-byte character.  (Without the
latter restriction a successful `match_and_take` on a multi-byte
character leaves the index inside a UTF-8 sequence and the next slicing
operation panics; without the former, `set_index` itself can create such
an index.) -/
theorem char_ops_no_panic (src : List Char) (ops : List CharOp)
    (hwf : ∀ op ∈ ops, wfOp src op) :
    (execList ops (SimpleTokenizer.fromSource src)).isSome = true := by
  obtain ⟨s', hs', _⟩ :=
    execList_boundary ops (SimpleTokenizer.fromSource src) hwf
      ⟨rfl, by simp [SimpleTokenizer.fromSource]⟩
  simp [hs']

/-- C3 (witness): a concrete well-formed operation sequence on `"ab"`
— covering `begin_token`, `take`, `match_and_take` (single-byte),
`expect`, `set_index` (to a boundary), `peek`, `end_token` and
`has_more_chars` — runs to completion without a panic. -/
theorem char_ops_no_panic_witness :
    (∀ op ∈ ([CharOp.begin_token, CharOp.take, CharOp.match_and_take 'b',
              CharOp.set_index 0, CharOp.expect 'a', CharOp.peek,
              CharOp.end_token, CharOp.has_more_chars] : List CharOp),
        wfOp "ab".data op) ∧
    (execList [CharOp.begin_token, CharOp.take, CharOp.match_and_take 'b',
               CharOp.set_index 0, CharOp.expect 'a', CharOp.peek,
               CharOp.end_token, CharOp.has_more_chars]
       (SimpleTokenizer.fromSource "ab".data)).isSome = true := by
  have hwf : ∀ op ∈ ([CharOp.begin_token, CharOp.take,
              CharOp.match_and_take 'b', CharOp.set_index 0,
              CharOp.expect 'a', CharOp.peek,
              CharOp.end_token, CharOp.has_more_chars] : List CharOp),
      wfOp "ab".data op := by
    intro op hop
    fin_cases hop
    · exact trivial
    · exact trivial
    · exact (by decide : Char.utf8Size 'b' = 1)
    · exact (by decide : (charsFrom "ab".data 0).isSome = true)
    · exact trivial
    · exact trivial
    · exact trivial
    · exact trivial
  exact ⟨hwf, char_ops_no_panic "ab".data _ hwf⟩

/-- C5 (counterexample): `set_index` performs no upper-bounds check, so
from the cursor over `"a"` (byte length 1), `set_index 5` moves the index
to 5, violating `index ≤ len(source)` — the invariant is NOT preserved by
every operation. -/
theorem set_index_overrun_cex :
    ¬ CursorInv
        (SimpleTokenizer.set_index (SimpleTokenizer.fromSource "a".data) 5) :=
  fun h => absurd h.2 (by decide)

/-- C5 (amended): the invariant `start ≤ index ≤ len(source)` holds in
the initial state built from a source text and is preserved by every
operation other than `set_index`; `set_index(i)` always re-establishes
`start ≤ index` (pulling `start` down to `i` when `i < start`) but
performs no upper-bounds check, so it alone can move the index past
`len(source)`. -/
theorem cursor_invariant (src : List Char) :
    CursorInv (SimpleTokenizer.fromSource src) ∧
    (∀ (s s' : SimpleTokenizer) (op : CharOp),
      (∀ i, op ≠ CharOp.set_index i) →
      CharOp.apply op s = some s' → CursorInv s → CursorInv s') ∧
    (∀ (s : SimpleTokenizer) (i : Nat),
      (SimpleTokenizer.set_index s i).start
        ≤ (SimpleTokenizer.set_index s i).index) := by
  refine ⟨⟨Nat.le_refl 0, Nat.zero_le _⟩, ?_, ?_⟩
  · intro s s' op hnot h hinv
    obtain ⟨h1, h2⟩ := hinv
    cases op with
    | begin_token =>
      obtain rfl : SimpleTokenizer.begin_token s = s' := by
        simpa [CharOp.apply] using h
      exact ⟨Nat.le_refl _, h2⟩
    | set_index i => exact absurd rfl (hnot i)
    | peek =>
      cases hcs : charsFrom s.source s.index with
      | none => simp [CharOp.apply, SimpleTokenizer.peek, hcs] at h
      | some cs =>
        simp [CharOp.apply, SimpleTokenizer.peek, hcs] at h
        obtain rfl := h
        exact ⟨h1, h2⟩
    | take =>
      cases hcs : charsFrom s.source s.index with
      | none => simp [CharOp.apply, SimpleTokenizer.take, hcs] at h
      | some cs =>
        cases cs with
        | nil =>
          simp [CharOp.apply, SimpleTokenizer.take, hcs] at h
          obtain rfl := h
          exact ⟨h1, h2⟩
        | cons c rest =>
          simp [CharOp.apply, SimpleTokenizer.take, hcs] at h
          obtain rfl := h
          have hlen := charsFrom_utf8Len hcs
          simp only [utf8Len_cons] at hlen
          refine ⟨?_, ?_⟩
          · show s.start ≤ s.index + c.utf8Size
            omega
          · show s.index + c.utf8Size ≤ utf8Len s.source
            omega
    | expect c =>
      cases hcs : charsFrom s.source s.index with
      | none => simp [CharOp.apply, SimpleTokenizer.expect, hcs] at h
      | some cs =>
        cases cs with
        | nil =>
          simp [CharOp.apply, SimpleTokenizer.expect, hcs] at h
          obtain rfl := h
          exact ⟨h1, h2⟩
        | cons g rest =>
          by_cases hg : g = c
          · subst hg
            simp [CharOp.apply, SimpleTokenizer.expect, hcs] at h
            obtain rfl := h
            have hlen := charsFrom_utf8Len hcs
            simp only [utf8Len_cons] at hlen
            refine ⟨?_, ?_⟩
            · show s.start ≤ s.index + g.utf8Size
              omega
            · show s.index + g.utf8Size ≤ utf8Len s.source
              omega
          · simp [CharOp.apply, SimpleTokenizer.expect, hcs, hg] at h
            obtain rfl := h
            exact ⟨h1, h2⟩
    | take_while p =>
      cases hcs : charsFrom s.source s.index with
      | none => simp [CharOp.apply, SimpleTokenizer.take_while, hcs] at h
      | some cs =>
        simp [CharOp.apply, SimpleTokenizer.take_while, hcs, scanWhile_eq] at h
        obtain rfl := h
        have hlen := charsFrom_utf8Len hcs
        have hle := utf8Len_takeWhile_le p cs
        refine ⟨?_, ?_⟩
        · show s.start ≤ s.index + utf8Len (cs.takeWhile p)
          omega
        · show s.index + utf8Len (cs.takeWhile p) ≤ utf8Len s.source
          omega
    | matchesChar c =>
      cases hcs : charsFrom s.source s.index with
      | none =>
        simp [CharOp.apply, SimpleTokenizer.matchesChar,
          SimpleTokenizer.peek, hcs] at h
      | some cs =>
        simp [CharOp.apply, SimpleTokenizer.matchesChar,
          SimpleTokenizer.peek, hcs] at h
        obtain rfl := h
        exact ⟨h1, h2⟩
    | match_and_take c =>
      cases hcs : charsFrom s.source s.index with
      | none =>
        simp [CharOp.apply, SimpleTokenizer.match_and_take,
          SimpleTokenizer.matchesChar, SimpleTokenizer.peek, hcs] at h
      | some cs =>
        cases cs with
        | nil =>
          simp [CharOp.apply, SimpleTokenizer.match_and_take,
            SimpleTokenizer.matchesChar, SimpleTokenizer.peek, hcs] at h
          obtain rfl := h
          exact ⟨h1, h2⟩
        | cons g rest =>
          by_cases hg : g = c
          · subst hg
            simp [CharOp.apply, SimpleTokenizer.match_and_take,
              SimpleTokenizer.matchesChar, SimpleTokenizer.peek, hcs] at h
            obtain rfl := h
            have hlen := charsFrom_utf8Len hcs
            simp only [utf8Len_cons] at hlen
            have hpos := Char.utf8Size_pos g
            refine ⟨?_, ?_⟩
            · show s.start ≤ s.index + 1
              omega
            · show s.index + 1 ≤ utf8Len s.source
              omega
          · simp [CharOp.apply, SimpleTokenizer.match_and_take,
              SimpleTokenizer.matchesChar, SimpleTokenizer.peek, hcs, hg] at h
            obtain rfl := h
            exact ⟨h1, h2⟩
    | end_token =>
      obtain rfl : s = s' := by simpa [CharOp.apply] using h
      exact ⟨h1, h2⟩
    | has_more_chars =>
      obtain rfl : s = s' := by simpa [CharOp.apply] using h
      exact ⟨h1, h2⟩
  · intro s i
    show (if s.start > i then i else s.start) ≤ i
    by_cases hlt : s.start > i
    · simp [hlt]
    · simp only [if_neg hlt]
      omega

/-- C5 (witness): applying `take` on the initial cursor over `"a"`
preserves the invariant, and `set_index` keeps `start ≤ index` on a
concrete state. -/
theorem cursor_invariant_witness :
    (∀ i : Nat, CharOp.take ≠ CharOp.set_index i) ∧
    CharOp.apply CharOp.take (SimpleTokenizer.fromSource "a".data)
      = some { source := "a".data, index := 0 + Char.utf8Size 'a',
               start := 0 } ∧
    CursorInv (SimpleTokenizer.fromSource "a".data) ∧
    CursorInv { source := "a".data, index := 0 + Char.utf8Size 'a',
                start := 0 } :=
  ⟨fun _ h => CharOp.noConfusion h, rfl, ⟨by decide, by decide⟩,
   (cursor_invariant "a".data).2.1 (SimpleTokenizer.fromSource "a".data)
     { source := "a".data, index := 0 + Char.utf8Size 'a', start := 0 }
     CharOp.take (fun _ h => CharOp.noConfusion h) rfl
     ⟨by decide, by decide⟩⟩
